import Mathlib

/-!
Shallow embedding of the persistent key-value store layer of the repository
(`NewPersistantStore` and its `pstore`, `pbatch`, `piter` types), which wraps
an ordered on-disk engine (goleveldb).

Modelling conventions:
- Go strings and byte slices become `List Nat` (`Bytes`); a genuine Go byte
  string satisfies `byteValid` (every element at most 255).
- The opaque engine is modelled as an association list from keys to values
  (`EngineState`), mutated by `engPut` / `engDel` / `engWrite`; engine reads
  during iteration yield entries in ascending byte-lexicographic key order,
  exactly as the engine's default bytewise comparer does.
- Store operations that can write are instrumented with the list of engine
  calls they issue (`OpResult.calls`), so that "reaches the engine" is a
  statement about the trace, not a paraphrase.
- Go's error returns become `Option StoreErr` / `Except StoreErr`; a panic
  becomes the `Except.error` channel of a dedicated `Except String` result.
-/

/-- A Go string / byte slice, as its list of byte values. -/
abbrev Bytes := List Nat

/-- All elements are genuine byte values (0..255). -/
def byteValid (l : Bytes) : Prop := ∀ b ∈ l, b ≤ 255

instance (l : Bytes) : Decidable (byteValid l) :=
  List.decidableBAll _ l

/-- The store's error taxonomy: `ErrKeyNotFound`, `ErrKeyTooLarge`,
`ErrValueTooLarge`, a wrapped engine error (`fmt.Errorf("leveldb error: %w", err)`),
and the `CommitBatch` type-assertion failure
(`fmt.Errorf("invalid batch mutation type: %T", batch)`). -/
inductive StoreErr where
  | keyNotFound
  | keyTooLarge
  | valueTooLarge
  | engineWrapped (e : String)
  | invalidBatchType (t : String)
deriving DecidableEq

/-- `MaxKeySize = 1 << 14` (16384 bytes). -/
def MaxKeySize : Nat := 16384

/-- `MaxValueSize = 1 << 16` (65536 bytes). -/
def MaxValueSize : Nat := 65536

/-- `CheckSizes`: the switch in the source, key checked first. -/
def CheckSizes (key : Bytes) (value : Bytes) : Option StoreErr :=
  if key.length > MaxKeySize then some StoreErr.keyTooLarge
  else if value.length > MaxValueSize then some StoreErr.valueTooLarge
  else none

/-- The engine's current contents: an association list from keys to values,
kept duplicate-free by construction. -/
abbrev EngineState := List (Bytes × Bytes)

/-- Engine point lookup: the stored value for `k`, if present. -/
def engGet (st : EngineState) (k : Bytes) : Option Bytes :=
  (st.find? (fun p => p.1 == k)).map (fun p => p.2)

/-- Engine put: last write wins. -/
def engPut (st : EngineState) (k v : Bytes) : EngineState :=
  (k, v) :: st.filter (fun p => p.1 != k)

/-- Engine delete: idempotent removal. -/
def engDel (st : EngineState) (k : Bytes) : EngineState :=
  st.filter (fun p => p.1 != k)

/-- An operation accumulated in a `leveldb.Batch`. -/
inductive BatchOp where
  | put (k v : Bytes)
  | del (k : Bytes)
deriving DecidableEq

/-- Atomic application of a whole batch (`ldb.Write`), in accumulation order. -/
def engWrite (st : EngineState) (ops : List BatchOp) : EngineState :=
  ops.foldl (fun s op =>
    match op with
    | BatchOp.put k v => engPut s k v
    | BatchOp.del k => engDel s k) st

/-- One call handed to the engine, recorded so that "no mutation reaches the
engine" is checkable on the trace. -/
inductive EngineCall where
  | put (k v : Bytes)
  | del (k : Bytes)
  | write (ops : List BatchOp)
deriving DecidableEq

/-- Result of a mutating store operation: the returned error (`none` = nil),
the engine calls issued, and the engine state afterwards. Engine-side write
failures are not modelled: the engine here always accepts a well-formed call. -/
structure OpResult where
  err : Option StoreErr
  calls : List EngineCall
  state : EngineState
deriving DecidableEq

/-- `pstore.Put`: `CheckSizes` first; only on success is `ldb.Put` called. -/
def pstorePut (st : EngineState) (k v : Bytes) : OpResult :=
  match CheckSizes k v with
  | some e => ⟨some e, [], st⟩
  | none => ⟨none, [EngineCall.put k v], engPut st k v⟩

/-- `pstore.Delete`: calls `ldb.Delete` directly; there is no size check. -/
def pstoreDelete (st : EngineState) (k : Bytes) : OpResult :=
  ⟨none, [EngineCall.del k], engDel st k⟩

/-- What the engine's `Get` hands back for key `k`, as seen by `pstore.Get`:
`none` is `leveldb.ErrNotFound`; `some none` is a found key whose returned
slice is Go `nil`; `some (some v)` is a found key with a non-nil slice.
Modelled from the spec: the engine reports a stored empty value as the
empty-but-present nil marker (the spec's §9 note on normalizing an explicit
empty result to NotFound), since the engine itself is outside this repository. -/
def ldbGetReply (st : EngineState) (k : Bytes) : Option (Option Bytes) :=
  (engGet st k).map (fun v => if v = [] then none else some v)

/-- `pstore.Get` over the engine state: `ErrNotFound` becomes `keyNotFound`,
a nil value also becomes `keyNotFound`, otherwise the value is returned. -/
def pstoreGet (st : EngineState) (k : Bytes) : Except StoreErr Bytes :=
  match ldbGetReply st k with
  | none => Except.error StoreErr.keyNotFound
  | some none => Except.error StoreErr.keyNotFound
  | some (some v) => Except.ok v

/-- The error component of the engine's raw `(value, err)` reply to `Get`. -/
inductive LdbGetErr where
  | notFound
  | other (e : String)
deriving DecidableEq

/-- `pstore.Get` as a function of the engine's raw reply pair, mirroring the
branch structure of the source exactly: `err == leveldb.ErrNotFound` maps to
`keyNotFound`; any other non-nil `err` is wrapped; then a nil `val` maps to
`keyNotFound`; otherwise `val` is returned. -/
def pstoreGetFromReply (val : Option Bytes) (err : Option LdbGetErr) :
    Except StoreErr Bytes :=
  match err with
  | some LdbGetErr.notFound => Except.error StoreErr.keyNotFound
  | some (LdbGetErr.other e) => Except.error (StoreErr.engineWrapped e)
  | none =>
    match val with
    | none => Except.error StoreErr.keyNotFound
    | some v => Except.ok v

/-- `pbatch`: the first recorded validation error (the poison flag) and the
accumulated operations. The mutex only serializes access and is not modelled. -/
structure PBatch where
  err : Option StoreErr
  ops : List BatchOp
deriving DecidableEq

/-- The fresh batch allocated by `BeginBatch`. -/
def pbatchNew : PBatch := ⟨none, []⟩

/-- `pbatch.Put`: no-op when poisoned; a failed `CheckSizes` poisons the
batch; otherwise the operation is appended. -/
def pbatchPut (b : PBatch) (k v : Bytes) : PBatch :=
  match b.err with
  | some _ => b
  | none =>
    match CheckSizes k v with
    | some e => { b with err := some e }
    | none => { b with ops := b.ops ++ [BatchOp.put k v] }

/-- `pbatch.Delete`: no-op when poisoned; otherwise appended, with no size
check of any kind. -/
def pbatchDelete (b : PBatch) (k : Bytes) : PBatch :=
  match b.err with
  | some _ => b
  | none => { b with ops := b.ops ++ [BatchOp.del k] }

/-- A value of the `BatchMutation` interface type as `CommitBatch` receives
it: either a genuine `*pbatch`, or a value of some other concrete type
(carrying its Go type name, for the `%T` in the error message). -/
inductive BatchMutationV where
  | pb (b : PBatch)
  | foreign (t : String)
deriving DecidableEq

/-- `pstore.BeginBatch`: a fresh empty batch. The receiving store is ignored;
the batch records no provenance. -/
def pstoreBeginBatch (_st : EngineState) : PBatch := pbatchNew

/-- `pstore.CommitBatch`: the type assertion rejects any non-`pbatch` value;
a poisoned batch returns its stored error with no engine contact; otherwise
the whole batch is handed to `ldb.Write` as one atomic call. -/
def pstoreCommitBatch (st : EngineState) (bm : BatchMutationV) : OpResult :=
  match bm with
  | BatchMutationV.foreign t => ⟨some (StoreErr.invalidBatchType t), [], st⟩
  | BatchMutationV.pb b =>
    match b.err with
    | some e => ⟨some e, [], st⟩
    | none => ⟨none, [EngineCall.write b.ops], engWrite st b.ops⟩

/-- A request issued against a batch, for reasoning about whole histories. -/
inductive BatchReq where
  | put (k v : Bytes)
  | del (k : Bytes)
deriving DecidableEq

/-- Apply one request to a batch. -/
def applyReq (b : PBatch) : BatchReq → PBatch
  | BatchReq.put k v => pbatchPut b k v
  | BatchReq.del k => pbatchDelete b k

/-- Run a whole history of requests against a fresh batch. -/
def runBatch (reqs : List BatchReq) : PBatch :=
  reqs.foldl applyReq pbatchNew

/-- The size-validation error of the first failing `Put` in a history
(`Delete` requests are never validated). -/
def firstFailure : List BatchReq → Option StoreErr
  | [] => none
  | BatchReq.put k v :: rest =>
    match CheckSizes k v with
    | some e => some e
    | none => firstFailure rest
  | BatchReq.del _ :: rest => firstFailure rest

/-- Strict byte-lexicographic order on keys, the engine's default comparer. -/
def lexLt : Bytes → Bytes → Bool
  | [], [] => false
  | [], _ :: _ => true
  | _ :: _, [] => false
  | a :: as, b :: bs =>
    if a < b then true else if b < a then false else lexLt as bs

/-- Insert an entry into a key-sorted list of entries. -/
def insertSorted (x : Bytes × Bytes) : List (Bytes × Bytes) → List (Bytes × Bytes)
  | [] => [x]
  | y :: ys => if lexLt x.1 y.1 then x :: y :: ys else y :: insertSorted x ys

/-- The engine's traversal order: entries sorted by key, ascending. -/
def sortEntries (l : List (Bytes × Bytes)) : List (Bytes × Bytes) :=
  l.foldr insertSorted []

/-- Lower-bound test of a `util.Range`: `none` (nil `Start`) is unbounded. -/
def startOk (s : Option Bytes) (k : Bytes) : Bool :=
  match s with
  | none => true
  | some sb => !lexLt k sb

/-- Upper-bound test of a `util.Range`: `none` (nil `Limit`) is unbounded,
otherwise strictly below the limit. -/
def limitOk (e : Option Bytes) (k : Bytes) : Bool :=
  match e with
  | none => true
  | some eb => lexLt k eb

/-- The entries a fresh engine iterator over `util.Range{Start, Limit}` yields
before exhaustion, in order. -/
def ldbScan (st : EngineState) (s e : Option Bytes) : List (Bytes × Bytes) :=
  (sortEntries st).filter (fun p => startOk s p.1 && limitOk e p.1)

/-- `pstore.RangeScan`: an empty string on either side leaves that bound nil. -/
def pstoreRangeScan (st : EngineState) (s e : Bytes) : List (Bytes × Bytes) :=
  ldbScan st (if s = [] then none else some s) (if e = [] then none else some e)

/-- `util.BytesPrefix`'s `Limit`: scanning from the last byte, the first byte
below 0xff is incremented and the rest dropped; all-0xff (or empty) yields a
nil limit. -/
def bytesPrefixLimit : Bytes → Option Bytes
  | [] => none
  | a :: rest =>
    match bytesPrefixLimit rest with
    | some l => some (a :: l)
    | none => if a < 255 then some [a + 1] else none

/-- `pstore.PrefixScan`: an iterator over `util.BytesPrefix(prefix)`. -/
def pstorePrefixScan (st : EngineState) (p : Bytes) : List (Bytes × Bytes) :=
  ldbScan st (some p) (bytesPrefixLimit p)

/-- The prefix with its last byte incremented (as a number, without byte
wraparound); the empty prefix, having no last byte, is left unchanged. -/
def incrLast : Bytes → Bytes
  | [] => []
  | [a] => [a + 1]
  | a :: rest => a :: incrLast rest

/-- `piter`: the closed flag, the entries the underlying engine cursor has
yet to yield, the entry it currently points at (none before the first `Next`
and after exhaustion, when the engine cursor's `Key`/`Value` are nil), and
any error the engine accumulated during traversal. -/
structure PIter where
  closed : Bool
  entries : List (Bytes × Bytes)
  current : Option (Bytes × Bytes)
  ldbErr : Option String
deriving DecidableEq

/-- `piter.Next`: panics (the `Except.error` channel carries the panic
message) when the iterator is closed; otherwise advances the engine cursor. -/
def piterNext (pi : PIter) : Except String (Bool × PIter) :=
  if pi.closed then Except.error "next() called on closed iterator"
  else
    match pi.entries with
    | [] => Except.ok (false, { pi with current := none })
    | x :: rest => Except.ok (true, { pi with entries := rest, current := some x })

/-- `piter.Key`: returns `string(pi.it.Key())` with no closed-flag check;
a nil cursor key becomes the empty string. -/
def piterKey (pi : PIter) : Except String Bytes :=
  Except.ok (match pi.current with
    | none => []
    | some x => x.1)

/-- `piter.Value`: returns the cursor value with no closed-flag check. -/
def piterValue (pi : PIter) : Except String Bytes :=
  Except.ok (match pi.current with
    | none => []
    | some x => x.2)

/-- `piter.Close`: sets the closed flag, releases the cursor, and surfaces
any engine traversal error wrapped. -/
def piterClose (pi : PIter) : PIter × Option StoreErr :=
  ({ pi with closed := true },
    pi.ldbErr.map (fun e => StoreErr.engineWrapped e))

/-! Helper lemmas (shared). -/

/-- A poisoned batch is a fixed point of `pbatch.Put`. -/
lemma pbatchPut_of_err (b : PBatch) (k v : Bytes) (e : StoreErr)
    (hb : b.err = some e) : pbatchPut b k v = b := by
  simp [pbatchPut, hb]

/-- A poisoned batch is a fixed point of `pbatch.Delete`. -/
lemma pbatchDelete_of_err (b : PBatch) (k : Bytes) (e : StoreErr)
    (hb : b.err = some e) : pbatchDelete b k = b := by
  simp [pbatchDelete, hb]

/-- Once poisoned, a batch stays poisoned with the same error through any
further requests. -/
lemma foldl_applyReq_poisoned (reqs : List BatchReq) :
    ∀ (b : PBatch) (e : StoreErr), b.err = some e →
      (reqs.foldl applyReq b).err = some e := by
  induction reqs with
  | nil => intro b e hb; simpa using hb
  | cons r rest ih =>
    intro b e hb
    have hfix : applyReq b r = b := by
      cases r with
      | put k v => exact pbatchPut_of_err b k v e hb
      | del k => exact pbatchDelete_of_err b k e hb
    simpa [List.foldl_cons, hfix] using ih b e hb

/-- Starting from an unpoisoned batch, the recorded error after a history of
requests is exactly the first size-validation failure in that history. -/
lemma foldl_applyReq_fresh (reqs : List BatchReq) :
    ∀ b : PBatch, b.err = none →
      (reqs.foldl applyReq b).err = firstFailure reqs := by
  induction reqs with
  | nil => intro b hb; simpa [firstFailure] using hb
  | cons r rest ih =>
    intro b hb
    cases r with
    | put k v =>
      cases hcs : CheckSizes k v with
      | some e =>
        have hstep : applyReq b (BatchReq.put k v) = { b with err := some e } := by
          simp [applyReq, pbatchPut, hb, hcs]
        rw [List.foldl_cons, hstep]
        rw [foldl_applyReq_poisoned rest _ e rfl]
        simp [firstFailure, hcs]
      | none =>
        have hstep : applyReq b (BatchReq.put k v) =
            { b with ops := b.ops ++ [BatchOp.put k v] } := by
          simp [applyReq, pbatchPut, hb, hcs]
        rw [List.foldl_cons, hstep]
        rw [ih _ (by simpa using hb)]
        simp [firstFailure, hcs]
    | del k =>
      have hstep : applyReq b (BatchReq.del k) =
          { b with ops := b.ops ++ [BatchOp.del k] } := by
        simp [applyReq, pbatchDelete, hb]
      rw [List.foldl_cons, hstep]
      rw [ih _ (by simpa using hb)]
      simp [firstFailure]

/-! Claim theorems. -/

/-- C1: once a size-validation failure has been recorded in a batch, every
subsequent `Put` or `Delete` on it is a silent no-op; `CommitBatch` returns
the recorded error verbatim, issues no engine call, and leaves the engine
state unchanged; and the recorded error is exactly the first validation
failure of the batch's history. -/
theorem spec_batch_poison_atomicity :
    (∀ (b : PBatch) (k v : Bytes) (e : StoreErr), b.err = some e →
      pbatchPut b k v = b) ∧
    (∀ (b : PBatch) (k : Bytes) (e : StoreErr), b.err = some e →
      pbatchDelete b k = b) ∧
    (∀ (st : EngineState) (b : PBatch) (e : StoreErr), b.err = some e →
      pstoreCommitBatch st (BatchMutationV.pb b) = ⟨some e, [], st⟩) ∧
    (∀ reqs : List BatchReq, (runBatch reqs).err = firstFailure reqs) := by
  refine ⟨pbatchPut_of_err, pbatchDelete_of_err, ?_, ?_⟩
  · intro st b e hb
    simp [pstoreCommitBatch, hb]
  · intro reqs
    exact foldl_applyReq_fresh reqs pbatchNew rfl

/-- Witness for C1 at concrete inputs: a batch poisoned with `keyTooLarge`
ignores a further `Put` and `Delete`, and committing a poisoned batch returns
its error with no engine call and no state change. -/
theorem spec_batch_poison_atomicity_witness :
    pbatchPut ⟨some StoreErr.keyTooLarge, []⟩ [1] [2] =
      ⟨some StoreErr.keyTooLarge, []⟩ ∧
    pbatchDelete ⟨some StoreErr.keyTooLarge, []⟩ [1] =
      ⟨some StoreErr.keyTooLarge, []⟩ ∧
    pstoreCommitBatch [([3], [4])]
        (BatchMutationV.pb ⟨some StoreErr.valueTooLarge, [BatchOp.put [1] [2]]⟩) =
      ⟨some StoreErr.valueTooLarge, [], [([3], [4])]⟩ :=
  ⟨spec_batch_poison_atomicity.1 _ [1] [2] StoreErr.keyTooLarge rfl,
   spec_batch_poison_atomicity.2.1 _ [1] StoreErr.keyTooLarge rfl,
   spec_batch_poison_atomicity.2.2.1 _ _ StoreErr.valueTooLarge rfl⟩

/-- C2 counterexample: a single-key `Delete` with a key of 16385 bytes
(beyond `MaxKeySize`) is handed to the engine as a `del` call without any
size check and without error, refuting "the key size is checked before the
mutation reaches the engine" for Delete. -/
theorem spec_size_checks_cex :
    MaxKeySize < (List.replicate 16385 0).length ∧
    pstoreDelete [] (List.replicate 16385 0) =
      ⟨none, [EngineCall.del (List.replicate 16385 0)], []⟩ := by
  constructor
  · rw [List.length_replicate]; decide
  · rfl

/-- C2 amended: size checks guard Put operations only. Single-key `Put` and
batch `Put` reject any `CheckSizes` failure before the engine (or the batch's
operation list) is touched, while single-key `Delete` and batch `Delete`
perform no size validation at all and hand every key through. -/
theorem spec_size_checks_amended :
    (∀ (st : EngineState) (k v : Bytes) (e : StoreErr), CheckSizes k v = some e →
      pstorePut st k v = ⟨some e, [], st⟩) ∧
    (∀ (b : PBatch) (k v : Bytes) (e : StoreErr), b.err = none →
      CheckSizes k v = some e → pbatchPut b k v = { b with err := some e }) ∧
    (∀ (st : EngineState) (k : Bytes),
      pstoreDelete st k = ⟨none, [EngineCall.del k], engDel st k⟩) ∧
    (∀ (b : PBatch) (k : Bytes), b.err = none →
      pbatchDelete b k = { b with ops := b.ops ++ [BatchOp.del k] }) := by
  refine ⟨?_, ?_, fun st k => rfl, ?_⟩
  · intro st k v e hcs
    simp [pstorePut, hcs]
  · intro b k v e hb hcs
    simp [pbatchPut, hb, hcs]
  · intro b k hb
    simp [pbatchDelete, hb]

/-- Witness for C2's amended claim at concrete inputs: an oversized-key `Put`
is rejected with no engine call, and a `Delete` of that same oversized key is
handed to the engine. -/
theorem spec_size_checks_amended_witness :
    pstorePut [] (List.replicate 16385 0) [] =
      ⟨some StoreErr.keyTooLarge, [], []⟩ ∧
    pbatchDelete pbatchNew (List.replicate 16385 0) =
      ⟨none, [BatchOp.del (List.replicate 16385 0)]⟩ :=
  ⟨spec_size_checks_amended.1 [] _ [] StoreErr.keyTooLarge
      (by unfold CheckSizes; rw [List.length_replicate]; rfl),
   spec_size_checks_amended.2.2.2 pbatchNew _ rfl⟩

/-- C3 counterexample: the empty value is within the size limits, its `Put`
succeeds, yet the following `Get` of the same key returns `keyNotFound`
instead of the value that was put (the engine's empty-but-present reply is
normalized to NotFound). -/
theorem spec_roundtrip_cex :
    [97].length ≤ MaxKeySize ∧ ([] : Bytes).length ≤ MaxValueSize ∧
    (pstorePut [] [97] []).err = none ∧
    pstoreGet (pstorePut [] [97] []).state [97] =
      Except.error StoreErr.keyNotFound :=
  ⟨by decide, by decide, rfl, rfl⟩

/-- C3 amended: for every key within `MaxKeySize` and every non-empty value
within `MaxValueSize`, `Put` succeeds and an immediately following `Get` of
the same key returns exactly the value that was put. -/
theorem spec_roundtrip_amended (st : EngineState) (k v : Bytes)
    (hk : k.length ≤ MaxKeySize) (hv : v.length ≤ MaxValueSize)
    (hne : v ≠ []) :
    (pstorePut st k v).err = none ∧
    pstoreGet (pstorePut st k v).state k = Except.ok v := by
  have hcs : CheckSizes k v = none := by
    unfold CheckSizes
    rw [if_neg (by omega), if_neg (by omega)]
  have hput : pstorePut st k v = ⟨none, [EngineCall.put k v], engPut st k v⟩ := by
    simp [pstorePut, hcs]
  refine ⟨by rw [hput], ?_⟩
  rw [hput]
  have hget : engGet (engPut st k v) k = some v := by
    unfold engGet engPut
    rw [List.find?_cons_of_pos _ (by simp)]
    rfl
  simp [pstoreGet, ldbGetReply, hget, hne]

/-- Witness for C3's amended claim: a concrete one-byte key and value
round-trip through `Put` and `Get`. -/
theorem spec_roundtrip_amended_witness :
    (pstorePut [] [97] [7]).err = none ∧
    pstoreGet (pstorePut [] [97] [7]).state [97] = Except.ok [7] :=
  spec_roundtrip_amended [] [97] [7] (by decide) (by decide) (by decide)

/-- C4 counterexample: a batch built by one store's `BeginBatch` (a store
whose engine holds `([1],[1])`) is passed to `CommitBatch` of a different
store (engine holding `([9],[9])`); far from being rejected, the commit
succeeds and the batch's `Put` is applied to the second store's engine. -/
theorem spec_commit_ownership_cex :
    pstoreCommitBatch [([9], [9])]
        (BatchMutationV.pb (pbatchPut (pstoreBeginBatch [([1], [1])]) [5] [6])) =
      ⟨none, [EngineCall.write [BatchOp.put [5] [6]]],
        [([5], [6]), ([9], [9])]⟩ := by
  rfl

/-- C4 amended: `CommitBatch` rejects exactly the values whose concrete type
is not the store's batch type, with an `invalidBatchType` error and no engine
contact; any genuine unpoisoned batch value — no matter which store created
it — is accepted and its operations are written to the receiving store's
engine. -/
theorem spec_commit_type_check_amended :
    (∀ (st : EngineState) (t : String),
      pstoreCommitBatch st (BatchMutationV.foreign t) =
        ⟨some (StoreErr.invalidBatchType t), [], st⟩) ∧
    (∀ (st : EngineState) (b : PBatch), b.err = none →
      pstoreCommitBatch st (BatchMutationV.pb b) =
        ⟨none, [EngineCall.write b.ops], engWrite st b.ops⟩) := by
  refine ⟨fun st t => rfl, ?_⟩
  intro st b hb
  simp [pstoreCommitBatch, hb]

/-- Witness for C4's amended claim: a foreign value is rejected without state
change, and a fresh batch from another store commits successfully. -/
theorem spec_commit_type_check_amended_witness :
    pstoreCommitBatch [([9], [9])] (BatchMutationV.foreign "string") =
      ⟨some (StoreErr.invalidBatchType "string"), [], [([9], [9])]⟩ ∧
    pstoreCommitBatch [([9], [9])] (BatchMutationV.pb pbatchNew) =
      ⟨none, [EngineCall.write []], [([9], [9])]⟩ :=
  ⟨spec_commit_type_check_amended.1 [([9], [9])] "string",
   spec_commit_type_check_amended.2 [([9], [9])] pbatchNew rfl⟩

/-- C5: `Get` maps the engine's not-found error to `keyNotFound`, maps a
found-but-nil value to the same `keyNotFound`, wraps every other engine
failure as `engineWrapped` (which is distinct from `keyNotFound`), and
returns any non-nil value unchanged. -/
theorem spec_get_notfound_distinct (val : Option Bytes) (e : String) :
    pstoreGetFromReply val (some LdbGetErr.notFound) =
      Except.error StoreErr.keyNotFound ∧
    pstoreGetFromReply none none = Except.error StoreErr.keyNotFound ∧
    pstoreGetFromReply val (some (LdbGetErr.other e)) =
      Except.error (StoreErr.engineWrapped e) ∧
    StoreErr.engineWrapped e ≠ StoreErr.keyNotFound ∧
    (∀ v, pstoreGetFromReply (some v) none = Except.ok v) :=
  ⟨rfl, rfl, rfl, by simp, fun v => rfl⟩

/-- C6: single-key `Put` returns `keyTooLarge` for an oversized key, and
`valueTooLarge` for an in-bounds key with an oversized value; in both cases
no engine call is issued and the engine state is unchanged. -/
theorem spec_put_size_enforcement (st : EngineState) (k v : Bytes) :
    (MaxKeySize < k.length →
      pstorePut st k v = ⟨some StoreErr.keyTooLarge, [], st⟩) ∧
    (k.length ≤ MaxKeySize → MaxValueSize < v.length →
      pstorePut st k v = ⟨some StoreErr.valueTooLarge, [], st⟩) := by
  constructor
  · intro hk
    simp [pstorePut, CheckSizes, hk]
  · intro hk hv
    unfold pstorePut CheckSizes
    rw [if_neg (by omega), if_pos (by omega)]

/-- Witness for C6: a 16385-byte key is rejected as too large, and a 65537-
byte value under a small key is rejected as too large, both without engine
contact. -/
theorem spec_put_size_enforcement_witness :
    pstorePut [] (List.replicate 16385 0) [] =
      ⟨some StoreErr.keyTooLarge, [], []⟩ ∧
    pstorePut [] [0] (List.replicate 65537 0) =
      ⟨some StoreErr.valueTooLarge, [], []⟩ :=
  ⟨(spec_put_size_enforcement [] _ []).1 (by rw [List.length_replicate]; decide),
   (spec_put_size_enforcement [] [0] _).2 (by decide)
     (by rw [List.length_replicate]; decide)⟩

/-- C8: `Close` marks the iterator closed, and `Next` on a closed iterator
terminates abnormally with the panic message "next() called on closed
iterator" instead of returning through the normal channel. -/
theorem spec_next_after_close_panics :
    (∀ pit : PIter, ((piterClose pit).1).closed = true) ∧
    (∀ pit : PIter, pit.closed = true →
      piterNext pit = Except.error "next() called on closed iterator") := by
  constructor
  · intro pit; rfl
  · intro pit h
    simp [piterNext, h]

/-- Witness for C8: a concrete closed iterator panics on `Next`. -/
theorem spec_next_after_close_panics_witness :
    piterNext ⟨true, [], none, none⟩ =
      Except.error "next() called on closed iterator" :=
  spec_next_after_close_panics.2 ⟨true, [], none, none⟩ rfl

/-- C9: when the key exceeds `MaxKeySize` and the value exceeds
`MaxValueSize` at once, `CheckSizes` — and with it single-key `Put` and
batch `Put` — reports `keyTooLarge`, the key error taking precedence. -/
theorem spec_key_error_precedence (k v : Bytes)
    (hk : MaxKeySize < k.length) (_hv : MaxValueSize < v.length) :
    CheckSizes k v = some StoreErr.keyTooLarge ∧
    (∀ st : EngineState, pstorePut st k v = ⟨some StoreErr.keyTooLarge, [], st⟩) ∧
    (∀ b : PBatch, b.err = none →
      pbatchPut b k v = { b with err := some StoreErr.keyTooLarge }) := by
  have hcs : CheckSizes k v = some StoreErr.keyTooLarge := by
    simp [CheckSizes, hk]
  refine ⟨hcs, fun st => ?_, fun b hb => ?_⟩
  · simp [pstorePut, hcs]
  · simp [pbatchPut, hb, hcs]

/-- Witness for C9: with a 16385-byte key and a 65537-byte value, the key
error wins. -/
theorem spec_key_error_precedence_witness :
    CheckSizes (List.replicate 16385 0) (List.replicate 65537 0) =
      some StoreErr.keyTooLarge :=
  (spec_key_error_precedence _ _ (by rw [List.length_replicate]; decide)
    (by rw [List.length_replicate]; decide)).1

/-- C10: `Key` and `Value` check no closed flag: on an iterator on which
`Close` has been called they still return through the normal channel (never
the closed-iterator panic). -/
theorem spec_key_value_no_close_guard (pit : PIter) :
    (∃ v, piterKey ((piterClose pit).1) = Except.ok v) ∧
    (∃ v, piterValue ((piterClose pit).1) = Except.ok v) :=
  ⟨⟨_, rfl⟩, ⟨_, rfl⟩⟩

/-! Lemmas for the scan claims. -/

/-- Nothing is lexicographically below the empty key. -/
lemma lexLt_nil_right (k : Bytes) : lexLt k [] = false := by
  cases k <;> rfl

/-- Membership through `insertSorted`. -/
lemma mem_insertSorted (x y : Bytes × Bytes) :
    ∀ l : List (Bytes × Bytes), (y ∈ insertSorted x l ↔ y = x ∨ y ∈ l) := by
  intro l
  induction l with
  | nil => simp [insertSorted]
  | cons z zs ih =>
    unfold insertSorted
    split
    · simp [List.mem_cons]
    · simp [List.mem_cons, ih]
      tauto

/-- Sorting the entries changes no memberships. -/
lemma mem_sortEntries (l : List (Bytes × Bytes)) (y : Bytes × Bytes) :
    y ∈ sortEntries l ↔ y ∈ l := by
  induction l with
  | nil => simp [sortEntries]
  | cons z zs ih =>
    unfold sortEntries at ih ⊢
    rw [List.foldr_cons, mem_insertSorted, ih, List.mem_cons]

/-- A nonempty prefix keeps a nonempty incremented form. -/
lemma incrLast_ne_nil (p : Bytes) (h : p ≠ []) : incrLast p ≠ [] := by
  cases p with
  | nil => exact absurd rfl h
  | cons a rest =>
    cases rest with
    | nil => simp [incrLast]
    | cons c rs => simp [incrLast]

/-- Unfolding equation for `bytesPrefixLimit` on a nonempty prefix. -/
lemma bytesPrefixLimit_cons (a : Nat) (rest : Bytes) :
    bytesPrefixLimit (a :: rest) =
      match bytesPrefixLimit rest with
      | some l => some (a :: l)
      | none => if a < 255 then some [a + 1] else none := by
  rfl

/-- Unfolding equation for `lexLt` on two nonempty keys. -/
lemma lexLt_cons_cons (a b : Nat) (as bs : Bytes) :
    lexLt (a :: as) (b :: bs) =
      if a < b then true else if b < a then false else lexLt as bs := by
  rfl

/-- Unfolding equation for `incrLast` on a prefix of two or more bytes. -/
lemma incrLast_cons_cons (a c : Nat) (rs : Bytes) :
    incrLast (a :: c :: rs) = a :: incrLast (c :: rs) := by
  rfl

/-- On every genuine byte key at or above the prefix, the `BytesPrefix`
limit test agrees with strict comparison against the prefix with its last
byte incremented. -/
lemma limit_equiv :
    ∀ p k : Bytes, p ≠ [] → byteValid p → byteValid k → lexLt k p = false →
      limitOk (bytesPrefixLimit p) k = lexLt k (incrLast p) := by
  intro p
  induction p with
  | nil => intro k h; exact absurd rfl h
  | cons a rest ih =>
    intro k _ hp hk hlt
    cases k with
    | nil => exact absurd hlt (by simp [lexLt])
    | cons b t =>
      have hb255 : b ≤ 255 := hk b (List.mem_cons_self b t)
      have ha255 : a ≤ 255 := hp a (List.mem_cons_self a rest)
      have hkt : byteValid t := fun x hx => hk x (List.mem_cons_of_mem b hx)
      have hpr : byteValid rest := fun x hx => hp x (List.mem_cons_of_mem a hx)
      rw [lexLt_cons_cons] at hlt
      have hba : ¬ b < a := by
        intro h
        rw [if_pos h] at hlt
        exact Bool.noConfusion hlt
      rw [if_neg hba] at hlt
      cases rest with
      | nil =>
        have h1 : incrLast [a] = [a + 1] := rfl
        have h2 : bytesPrefixLimit [a] = if a < 255 then some [a + 1] else none := rfl
        rw [h1, h2]
        by_cases h255 : a < 255
        · rw [if_pos h255]
          rfl
        · rw [if_neg h255]
          have htrue : lexLt (b :: t) [a + 1] = true := by
            rw [lexLt_cons_cons, if_pos (by omega)]
          rw [htrue]
          rfl
      | cons c rs =>
        rw [incrLast_cons_cons, lexLt_cons_cons, if_neg hba]
        cases hbpl : bytesPrefixLimit (c :: rs) with
        | some l =>
          have houter : bytesPrefixLimit (a :: c :: rs) = some (a :: l) := by
            rw [bytesPrefixLimit_cons, hbpl]
          rw [houter]
          show lexLt (b :: t) (a :: l) = _
          rw [lexLt_cons_cons, if_neg hba]
          by_cases hab : a < b
          · rw [if_pos hab, if_pos hab]
          · rw [if_neg hab, if_neg hab]
            rw [if_neg hab] at hlt
            have ihp := ih t (by simp) hpr hkt hlt
            rw [hbpl] at ihp
            exact ihp
        | none =>
          by_cases h255 : a < 255
          · have houter : bytesPrefixLimit (a :: c :: rs) = some [a + 1] := by
              rw [bytesPrefixLimit_cons, hbpl]
              exact if_pos h255
            rw [houter]
            show lexLt (b :: t) [a + 1] = _
            rw [lexLt_cons_cons]
            by_cases hab : a < b
            · rw [if_pos hab]
              rw [if_neg (show ¬ b < a + 1 by omega)]
              by_cases hb1 : a + 1 < b
              · rw [if_pos hb1]
              · rw [if_neg hb1]
                exact lexLt_nil_right t
            · rw [if_neg hab]
              rw [if_pos (show b < a + 1 by omega)]
              rw [if_neg hab] at hlt
              have ihp := ih t (by simp) hpr hkt hlt
              rw [hbpl] at ihp
              exact ihp
          · have houter : bytesPrefixLimit (a :: c :: rs) = none := by
              rw [bytesPrefixLimit_cons, hbpl]
              exact if_neg h255
            rw [houter]
            have hab : ¬ a < b := by omega
            rw [if_neg hab]
            rw [if_neg hab] at hlt
            have ihp := ih t (by simp) hpr hkt hlt
            rw [hbpl] at ihp
            exact ihp

/-- C7: over genuine byte keys, `PrefixScan(prefix)` yields exactly the same
entries, in the same ascending byte-lexicographic order, as
`RangeScan(prefix, prefix-with-last-byte-incremented)`: the half-open range
from the prefix to the prefix with its last byte incremented (as a number;
the empty prefix, having no last byte, stays empty, which `RangeScan` reads
as unbounded). -/
theorem spec_prefix_eq_range (st : EngineState) (p : Bytes)
    (hp : byteValid p) (hst : ∀ kv ∈ st, byteValid kv.1) :
    pstorePrefixScan st p = pstoreRangeScan st p (incrLast p) := by
  unfold pstorePrefixScan pstoreRangeScan ldbScan
  refine List.filter_congr ?_
  intro x hx
  have hkx : byteValid x.1 := hst x ((mem_sortEntries st x).1 hx)
  by_cases hpn : p = []
  · subst hpn
    simp [startOk, limitOk, bytesPrefixLimit, incrLast, lexLt_nil_right]
  · rw [if_neg hpn, if_neg (incrLast_ne_nil p hpn)]
    by_cases hlt : lexLt x.1 p
    · simp [startOk, hlt]
    · have hltf : lexLt x.1 p = false := by
        simpa using hlt
      have heq := limit_equiv p x.1 hpn hp hkx hltf
      show (startOk (some p) x.1 && limitOk (bytesPrefixLimit p) x.1) =
        (startOk (some p) x.1 && limitOk (some (incrLast p)) x.1)
      rw [heq]
      rfl

/-- Witness for C7 at a concrete store and a prefix whose last byte is 0xff
(the case where `BytesPrefix` leaves the limit nil): both scans agree. -/
theorem spec_prefix_eq_range_witness :
    byteValid [255] ∧
    (∀ kv ∈ ([([255, 1], [7]), ([1], [2]), ([255], [9])] : EngineState),
      byteValid kv.1) ∧
    pstorePrefixScan [([255, 1], [7]), ([1], [2]), ([255], [9])] [255] =
      pstoreRangeScan [([255, 1], [7]), ([1], [2]), ([255], [9])] [255]
        (incrLast [255]) :=
  ⟨by decide, by decide,
   spec_prefix_eq_range [([255, 1], [7]), ([1], [2]), ([255], [9])] [255]
     (by decide) (by decide)⟩
